import Mathlib

/-!
Verification development for the FASTA partitioning core of
`dataplug/formats/genomics/fasta.py`.

The source file has four components:

* `preprocess_fasta` — scans one byte window of the source object with the
  greedy regex `rb">.+(\n)?"` and returns the record-boundary pairs found in
  that window, resolving a header line cut at the window's end with a
  supplementary `readline` against the whole object.  Offsets are narrowed to
  `uint32` when stored (`np.array(sequences, dtype=np.uint32)`).
* `merge_fasta_metadata` — concatenates the per-window pair arrays in window
  order and counts the records.
* `partition_chunks_strategy` — splits `[0, ceil(size/N)*N)` into `N`
  candidate ranges and aligns them against the index with
  `idx[:, 1].searchsorted` lookups.
* `FASTASlice.get` — materializes one partition by issuing range reads
  against the object store and, when a `header` interval is present,
  prepending `header_line[:-1] + b" offset=<n>" + b"\n"`.

Files are modelled as `List Nat` of byte values (`10` = `\n`, `62` = `'>'`).
`np.searchsorted(a, v)` (left side) is modelled as the index of the first
element `≥ v`, which is exactly numpy's result on the sorted arrays the index
invariant guarantees.  `math.ceil(size / num_chunks)` is modelled as exact
natural ceiling division (Python's float division is exact below `2^53`).
Machine-integer narrowing is kept explicit: the stored index entries are the
scanner's offsets reduced `% 2^32`.  Fallible code (`idx[i]` on an empty
array, a failed `assert`) is modelled with `Option`.
-/

/-- Byte value of the newline character `\n`. -/
def nlByte : Nat := 10

/-- Byte value of the FASTA header sigil `>`. -/
def gtByte : Nat := 62

/-- Byte lookup with default 0 (reads past the end never happen where used). -/
def dGet (l : List Nat) (i : Nat) : Nat := l.getD i 0

/-- Length of the first line of `l`, counting its terminating newline when
present (the number of bytes Python's `readline` returns at this position). -/
def lineLen : List Nat → Nat
  | [] => 0
  | b :: r => if b = nlByte then 1 else lineLen r + 1

/-- Offset just after the first newline at or after `p` (or end of file):
the file position Python's `tell()` reports after `seek(p); readline()`. -/
def fileLineEnd (file : List Nat) (p : Nat) : Nat :=
  p + lineLen (file.drop p)

/-! ## BoundaryScanner (`preprocess_fasta`, lines 24–63)

`re.finditer(rb">.+(\n)?", data)` scans left to right; a match starts at a
`>` byte followed by at least one non-newline byte, greedily consumes the
run of non-newline bytes and the terminating newline when it is inside the
window.  `scanLoop` is that automaton, byte by byte; the `Bool` of each
emitted triple records whether the match captured its newline
(`b"\n" in match.group()`). -/

/-- State of the `finditer` automaton: scanning free text, just saw a `>` at
offset `s` (regex still needs one non-newline byte), or inside the greedy
`.+` run of a match that started at offset `s`. -/
inductive ScanMode where
  | free : ScanMode
  | sawGt : Nat → ScanMode
  | inRun : Nat → ScanMode
deriving DecidableEq

/-- The `re.finditer(rb">.+(\n)?", data)` automaton.  `p` is the absolute
offset of the head byte.  Emits `(match_start, match_end, newline_captured)`
in match order. -/
def scanLoop : List Nat → Nat → ScanMode → List (Nat × Nat × Bool)
  | [], _, ScanMode.free => []
  | [], _, ScanMode.sawGt _ => []
  | [], p, ScanMode.inRun s => [(s, p, false)]
  | b :: rest, p, ScanMode.free =>
      if b = gtByte then scanLoop rest (p+1) (ScanMode.sawGt p)
      else scanLoop rest (p+1) ScanMode.free
  | b :: rest, p, ScanMode.sawGt s =>
      if b = nlByte then scanLoop rest (p+1) ScanMode.free
      else scanLoop rest (p+1) (ScanMode.inRun s)
  | b :: rest, p, ScanMode.inRun s =>
      if b = nlByte then (s, p+1, true) :: scanLoop rest (p+1) ScanMode.free
      else scanLoop rest (p+1) (ScanMode.inRun s)

/-- All regex matches of `rb">.+(\n)?"` over a window `data` that starts at
absolute file offset `off`. -/
def fastaMatches (data : List Nat) (off : Nat) : List (Nat × Nat × Bool) :=
  scanLoop data off ScanMode.free

/-- The boundary pairs `preprocess_fasta` collects for one window before the
`uint32` narrowing: the regex matches, with the last one replaced by
`(offset, tell-after-readline)` when its newline was not read
(fasta.py lines 38–56). -/
def preprocessWindow (file data : List Nat) (off : Nat) : List (Nat × Nat) :=
  let ms := fastaMatches data off
  match ms.getLast? with
  | none => []
  | some (s, _, captured) =>
      if captured then ms.map (fun m => (m.1, m.2.1))
      else (ms.dropLast.map (fun m => (m.1, m.2.1))) ++ [(s, fileLineEnd file s)]

/-- Model of `preprocess_fasta(cloud_object, chunk_data, chunk_id, chunk_size, _)`:
window offset `chunk_id * chunk_size`, pairs narrowed to `uint32` by
`np.array(sequences, dtype=np.uint32)`. -/
def preprocess_fasta (file data : List Nat) (chunk_id chunk_size : Nat) : List (Nat × Nat) :=
  (preprocessWindow file data (chunk_id * chunk_size)).map
    (fun q => (q.1 % 4294967296, q.2 % 4294967296))

/-- Scan of the window `[off, off+len)` of `file` (the window's bytes are the
corresponding slice of the object). -/
def scanWindow (file : List Nat) (off len : Nat) : List (Nat × Nat) :=
  preprocessWindow file ((file.drop off).take len) off

/-- Model of `merge_fasta_metadata`: concatenate the per-window pair lists in the
order supplied and count the records (`sum(arr.shape[0] / 2)`). -/
def merge_fasta_metadata (metas : List (List (Nat × Nat))) : List (Nat × Nat) × Nat :=
  (metas.flatten, (metas.map List.length).sum)

/-- The `(off, len)` windows induced by a list of window lengths laid out
contiguously from `start`. -/
def windowSpans : Nat → List Nat → List (Nat × Nat)
  | _, [] => []
  | o, l :: ls => (o, l) :: windowSpans (o + l) ls

/-- Concatenation, in file order, of the scanner results of the contiguous
windows described by `lens`. -/
def mergedScan (file : List Nat) (lens : List Nat) : List (Nat × Nat) :=
  ((windowSpans 0 lens).map (fun w => scanWindow file w.1 w.2)).flatten

/-- Whether a byte list contains a newline (`b"\n" in group`). -/
def hasNl (l : List Nat) : Bool :=
  decide (nlByte ∈ l)

/-- Position `i` of `data` starts a regex match of `rb">.+(\n)?"`: a `>` byte
followed (inside `data`) by at least one non-newline byte. -/
def isHeaderAt (data : List Nat) (i : Nat) : Bool :=
  decide (dGet data i = gtByte ∧ i + 1 < data.length ∧ dGet data (i + 1) ≠ nlByte)

/-- All match-start positions of a window, in order. -/
def headerIdxs (data : List Nat) : List Nat :=
  (List.range data.length).filter (isHeaderAt data)

/-- The reference boundary list for the window `[off, off+len)` of `file`:
one `(header_start, line_end)` pair for every header-start position of the
whole file falling in the window. -/
def canonPairs (file : List Nat) (off len : Nat) : List (Nat × Nat) :=
  (((List.range len).map (fun i => off + i)).filter (fun p => isHeaderAt file p)).map
    (fun p => (p, fileLineEnd file p))

/-- Every `>` byte of `data` (beyond the first position) sits at the start
of a line, i.e. right after a newline.  FASTA headers satisfy this; a `>`
in the middle of a line (e.g. inside a header's description text) breaks
the window-split equivalence. -/
def HdrOk (data : List Nat) : Prop :=
  ∀ i, i + 1 < data.length → dGet data (i + 1) = gtByte → dGet data i = nlByte

instance (data : List Nat) : Decidable (HdrOk data) :=
  decidable_of_iff
    (∀ i, i < data.length →
      (i + 1 < data.length → dGet data (i + 1) = gtByte → dGet data i = nlByte))
    ⟨fun h i h1 hgt => h i (by omega) h1 hgt, fun h i _ h1 hgt => h i h1 hgt⟩

/-- Window boundary `b` does not cut a header immediately after its `>`
sigil: the byte before `b` is not a `>` that still has header characters
after `b`.  (Such a cut makes the regex `>.+` miss the record entirely in
both adjacent windows.) -/
def noHeaderCut (file : List Nat) (b : Nat) : Prop :=
  ¬ (0 < b ∧ b < file.length ∧ dGet file (b - 1) = gtByte ∧ dGet file b ≠ nlByte)

instance (file : List Nat) (b : Nat) : Decidable (noHeaderCut file b) :=
  decidable_of_iff
    (¬ (0 < b ∧ b < file.length ∧ dGet file (b - 1) = gtByte ∧ dGet file b ≠ nlByte))
    Iff.rfl

/-! ## PartitionPlanner (`partition_chunks_strategy`, lines 117–158) -/

/-- One partition plan (`FASTASlice.__init__` fields).  `offset` is
`in_sequence_offset` (Python computes it as `int - np.uint32`, which can go
negative, hence `Int`); `header` is the optional header interval. -/
structure FASTASlice where
  offset : Int
  header : Option (Nat × Nat)
  range_0 : Nat
  range_1 : Nat
deriving DecidableEq

/-- Model of `np.searchsorted(xs, v)` with the default left side on a sorted `xs`:
index of the first element `≥ v` (the length if there is none). -/
def searchsorted (xs : List Nat) (v : Nat) : Nat :=
  xs.findIdx (fun x => decide (v ≤ x))

/-- The Step-1 candidate ranges (fasta.py lines 121–122):
`chunk_sz = math.ceil(size / num_chunks)` and
`ranges = [(chunk_sz * i, chunk_sz * i + chunk_sz) for i in range(num_chunks)]`.
Note the last range is NOT clipped to `size`. -/
def chunk_ranges (size num_chunks : Nat) : List (Nat × Nat) :=
  let chunk_sz := (size + num_chunks - 1) / num_chunks
  (List.range num_chunks).map (fun i => (chunk_sz * i, chunk_sz * i + chunk_sz))

/-- Body of the planner's `for r0, r1 in ranges:` loop (lines 125–156).
`none` models the `IndexError` numpy raises for `idx[i]` out of bounds
(which happens exactly when the index is empty). -/
def planSlice (idx : List (Nat × Nat)) (r0 r1 : Nat) : Option FASTASlice :=
  let seqCol := idx.map Prod.snd
  let i0 := searchsorted seqCol r0
  let seq_top_i := if 0 < i0 then i0 - 1 else 0
  match idx[seq_top_i]? with
  | none => none
  | some (top_id_offset, top_seq_offset) =>
    let step2 : Nat × Int × Option (Nat × Nat) :=
      if top_id_offset ≤ r0 ∧ r0 < top_seq_offset then
        (top_id_offset, 0, none)
      else
        (r0, (r0 : Int) - (top_seq_offset : Int), some (top_id_offset, top_seq_offset))
    let r0n := step2.1
    let i1 := searchsorted seqCol r0n
    let seq_bot_i := if i1 = idx.length then idx.length - 1 else i1
    match idx[seq_bot_i]? with
    | none => none
    | some (bot_id_offset, bot_seq_offset) =>
      let r1n := if bot_id_offset ≤ r1 ∧ r1 < bot_seq_offset then bot_id_offset else r1
      some ⟨step2.2.1, step2.2.2, r0n, r1n⟩

/-- Model of `partition_chunks_strategy(cloud_object, num_chunks)` on a decoded index
`idx` (the `uint32` pairs of the merged metadata) and object size `size`. -/
def partition_chunks_strategy (idx : List (Nat × Nat)) (size num_chunks : Nat) :
    Option (List FASTASlice) :=
  (chunk_ranges size num_chunks).mapM (fun r => planSlice idx r.1 r.2)

/-! ## FragmentMaterializer (`FASTASlice.get`, lines 88–114) -/

/-- An object-store `get_object` response: HTTP status and body bytes. -/
structure GetResponse where
  status : Nat
  body : List Nat
deriving DecidableEq

/-- Byte encoding of a string (each char below 256 in the strings used). -/
def strBytes (s : String) : List Nat := s.toList.map Char.toNat

/-- Model of `FASTASlice.get`. Here `storage r0 r1` is the range read for `[r0, r1)`
(`Range=bytes={r0}-{r1-1}`).  A failed `assert` surfaces as `none`.
Note line 105 of the source re-asserts `get_response`'s status — not
`header_response`'s — and that line 109 drops the header body's last byte
unconditionally (`header_line[:-1]`). -/
def FASTASlice.get (storage : Nat → Nat → GetResponse) (sl : FASTASlice) :
    Option (List Nat) :=
  let getResponse := storage sl.range_0 sl.range_1
  if getResponse.status = 200 ∨ getResponse.status = 206 then
    match sl.header with
    | none => some getResponse.body
    | some (header_r0, header_r1) =>
      let headerResponse := storage header_r0 header_r1
      if getResponse.status = 200 ∨ getResponse.status = 206 then
        some (headerResponse.body.dropLast
              ++ strBytes (" offset=" ++ toString sl.offset)
              ++ [nlByte]
              ++ getResponse.body)
      else none
  else none

/-- The spec's description of the header rewrite: the header bytes with a
trailing newline removed (and only a trailing newline). -/
def stripTrailingNl (l : List Nat) : List Nat :=
  if l.getLast? = some nlByte then l.dropLast else l

/-- Storage fake for the materializer witnesses: header interval `[100,104)`
holds `">hd\n"`, every other read returns payload `"ACG"`. -/
def demoStorage : Nat → Nat → GetResponse :=
  fun r0 _ => if r0 = 100 then ⟨206, [62, 104, 100, 10]⟩ else ⟨200, [65, 67, 71]⟩

/-- A plan continuing a record whose header lives at `[100, 104)`. -/
def demoSlice : FASTASlice := ⟨5, some (100, 104), 0, 3⟩

/-- Storage fake whose header read fails with HTTP 500 while the payload
read succeeds. -/
def badHeaderStorage : Nat → Nat → GetResponse :=
  fun r0 _ => if r0 = 50 then ⟨500, [1, 2, 3]⟩ else ⟨200, [7, 8]⟩

/-- A plan whose header interval `[50, 60)` is served by the failing read. -/
def badHeaderSlice : FASTASlice := ⟨3, some (50, 60), 0, 10⟩

/-- Storage fake whose header bytes `">xy"` do not end with a newline (a
header resolved at end-of-file without a trailing newline). -/
def rawHeaderStorage : Nat → Nat → GetResponse :=
  fun r0 _ => if r0 = 20 then ⟨200, [62, 120, 121]⟩ else ⟨206, [71, 71]⟩

/-- A plan whose header interval `[20, 23)` holds the newline-less header. -/
def rawHeaderSlice : FASTASlice := ⟨7, some (20, 23), 2, 4⟩


/-! ## Helper lemmas about the candidate ranges -/

/-- Per-index description of the Step-1 candidate ranges. -/
theorem chunk_ranges_getElem (size N i : Nat) (hi : i < N) :
    (chunk_ranges size N)[i]? = some ((size + N - 1) / N * i, (size + N - 1) / N * i + (size + N - 1) / N) := by
  simp [chunk_ranges, List.getElem?_map, List.getElem?_range, hi]

/-- The candidate ranges list has exactly `N` entries. -/
theorem chunk_ranges_length (size N : Nat) : (chunk_ranges size N).length = N := by
  simp [chunk_ranges]

/-- The quantity `N * ceil(size / N)` covers the object when `N ≥ 1`. -/
theorem ceil_chunk_covers (size N : Nat) (h : 1 ≤ N) : size ≤ (size + N - 1) / N * N := by
  have hdm := Nat.div_add_mod (size + N - 1) N
  have hmod : (size + N - 1) % N < N := Nat.mod_lt _ (by omega)
  rw [Nat.mul_comm]
  omega

/-- Applying `planSlice` on an empty index hits `idx[0]` out of bounds. -/
theorem planSlice_empty (a b : Nat) : planSlice [] a b = none := rfl

/-! ## Claims about the planner -/

/-- C1 (counterexample).  With index `[(0,3),(20,24)]`, object size 33 and
`N = 3`, the planner's plans have byte ranges `[0,11), [11,20), [22,33)`:
byte 20 of `[0, 33)` is covered by no plan, so the plans do not cover
`[0, object_size)` without gaps. -/
theorem fasta_C1_counterexample :
    partition_chunks_strategy [(0,3),(20,24)] 33 3 =
      some [⟨0, none, 0, 11⟩, ⟨8, some (0,3), 11, 20⟩, ⟨19, some (0,3), 22, 33⟩] ∧
    (∀ sl ∈ [(⟨0, none, 0, 11⟩ : FASTASlice), ⟨8, some (0,3), 11, 20⟩, ⟨19, some (0,3), 22, 33⟩],
      ¬ (sl.range_0 ≤ 20 ∧ 20 < sl.range_1)) ∧
    20 < 33 := by
  refine ⟨by decide, by decide, by decide⟩

/-- C1 (amended).  What the planner's Step 1 does guarantee: the `N`
candidate ranges, taken in order, tile `[0, N * ceil(size/N))` exactly — the
first starts at 0, each range ends where the next starts, and the last ends
at `N * ceil(size/N)`, which is at least (but not exactly) `object_size`.
The boundary-adjusted plans themselves may leave gaps, as the counterexample
shows. -/
theorem fasta_C1_amended (size N : Nat) (h : 1 ≤ N) :
    ((chunk_ranges size N)[0]?).map Prod.fst = some 0 ∧
    ((chunk_ranges size N).getLast?).map Prod.snd = some ((size + N - 1) / N * N) ∧
    (∀ i, i + 1 < N →
      ((chunk_ranges size N)[i]?).map Prod.snd = ((chunk_ranges size N)[i+1]?).map Prod.fst) ∧
    size ≤ (size + N - 1) / N * N := by
  refine ⟨?_, ?_, ?_, ceil_chunk_covers size N h⟩
  · rw [chunk_ranges_getElem size N 0 (by omega)]
    simp
  · rw [List.getLast?_eq_getElem?, chunk_ranges_length,
      chunk_ranges_getElem size N (N - 1) (by omega)]
    have : (size + N - 1) / N * (N - 1) + (size + N - 1) / N = (size + N - 1) / N * N := by
      rcases Nat.exists_eq_add_of_le h with ⟨k, hk⟩
      subst hk
      ring_nf
      rw [Nat.add_sub_cancel_left]
      ring
    simp [this]
  · intro i hi
    rw [chunk_ranges_getElem size N i (by omega), chunk_ranges_getElem size N (i+1) (by omega)]
    simp [Nat.mul_succ]

/-- C1 (amended) witness at `size = 10`, `N = 3`. -/
theorem fasta_C1_amended_witness :
    1 ≤ 3 ∧
    (((chunk_ranges 10 3)[0]?).map Prod.fst = some 0 ∧
     ((chunk_ranges 10 3).getLast?).map Prod.snd = some ((10 + 3 - 1) / 3 * 3) ∧
     (∀ i, i + 1 < 3 →
       ((chunk_ranges 10 3)[i]?).map Prod.snd = ((chunk_ranges 10 3)[i+1]?).map Prod.fst) ∧
     10 ≤ (10 + 3 - 1) / 3 * 3) :=
  ⟨by decide, fasta_C1_amended 10 3 (by decide)⟩

/-- C2 (code evaluation at the failing input).  With index
`[(0,3),(10,13)]`, object size 22 and `N = 2`, the first candidate range is
`[0, 11)` and `r1 = 11` falls strictly inside record 1's header line
`[10, 13)`; the claim requires `range_end` to be trimmed back to 10, but
the code searches the bottom boundary with `r0 = 0` (finding record 0, whose
condition fails) and leaves `range_end = 11`. -/
theorem fasta_C2_code_eval :
    partition_chunks_strategy [(0,3),(10,13)] 22 2 =
      some [⟨0, none, 0, 11⟩, ⟨8, some (0,3), 11, 22⟩] ∧
    ((10:Nat) ≤ 11 ∧ 11 < 13) := by
  refine ⟨by decide, by decide⟩

/-- C3 (counterexample).  On index `[(0,7),(12,19)]`, size 24, `N = 2`, the
second plan does not have `in_sequence_offset 0` and no `header_range`: the
code produces offset 5 and header range `(0, 7)`. -/
theorem fasta_C3_counterexample :
    (partition_chunks_strategy [(0,7),(12,19)] 24 2).map (fun ls => ls.map FASTASlice.offset) =
      some [0, 5] ∧
    (partition_chunks_strategy [(0,7),(12,19)] 24 2).map (fun ls => ls.map FASTASlice.header) =
      some [none, some (0, 7)] ∧
    (5 : Int) ≠ 0 ∧ (some (0, 7) : Option (Nat × Nat)) ≠ none := by
  refine ⟨by decide, by decide, by decide, by decide⟩

/-- C3 (amended).  On the 24-byte scenario the planner produces exactly two
plans: `[0,12)` with offset 0 and no header range, and `[12,24)` — starting
at header offset 12 as claimed, but with `in_sequence_offset 5` and
`header_range (0,7)`: the `searchsorted`-then-step-back lookup classifies a
partition that starts exactly at a later record's header as a mid-payload
continuation of the previous record. -/
theorem fasta_C3_amended :
    partition_chunks_strategy [(0,7),(12,19)] 24 2 =
      some [⟨0, none, 0, 12⟩, ⟨5, some (0,7), 12, 24⟩] := by
  decide

/-- C4 (counterexample).  On an empty index with size 24 and `N = 2` the
planner does not return the two unmodified candidate ranges: it fails
(`idx[0]` raises `IndexError`), modelled as `none`. -/
theorem fasta_C4_counterexample :
    partition_chunks_strategy [] 24 2 = none ∧
    (none : Option (List FASTASlice)) ≠
      some ((chunk_ranges 24 2).map (fun r => ⟨0, none, r.1, r.2⟩)) := by
  refine ⟨by decide, by decide⟩

/-- C4 (amended).  When the SequenceIndex is empty the planner always fails:
for every object size and every `N ≥ 1` the very first chunk's governing
record lookup indexes `idx[0]` out of bounds, so no partition plans are
returned. -/
theorem fasta_C4_amended (size N : Nat) (h : 1 ≤ N) :
    partition_chunks_strategy [] size N = none := by
  have hlen : (chunk_ranges size N).length = N := chunk_ranges_length size N
  match hcr : chunk_ranges size N with
  | [] => rw [hcr] at hlen; simp at hlen; omega
  | r :: rest =>
      unfold partition_chunks_strategy
      rw [hcr]
      rfl

/-- C4 (amended) witness at `size = 5`, `N = 1`. -/
theorem fasta_C4_amended_witness :
    1 ≤ 1 ∧ partition_chunks_strategy [] 5 1 = none :=
  ⟨by decide, fasta_C4_amended 5 1 (by decide)⟩

/-- C6 (counterexample).  For `size = 10`, `N = 3`, the Step-1 ranges are
`[(0,4),(4,8),(8,12)]`: the last range ends at 12, which is not clipped to
the object size 10 — it extends past the end of the object. -/
theorem fasta_C6_counterexample :
    chunk_ranges 10 3 = [(0,4),(4,8),(8,12)] ∧
    ((chunk_ranges 10 3).getLast?).map Prod.snd = some 12 ∧
    10 < 12 := by
  refine ⟨by decide, by decide, by decide⟩

/-- C6 (amended).  Step 1 produces `N` contiguous candidate ranges of size
`ceil(size/N)` each, the `i`-th being
`[ceil(size/N)*i, ceil(size/N)*(i+1))` — but the last range is NOT clipped:
it ends at `N * ceil(size/N)`, which is at least `size` and can exceed it. -/
theorem fasta_C6_amended (size N : Nat) (h : 1 ≤ N) :
    (chunk_ranges size N).length = N ∧
    (∀ i, i < N →
      (chunk_ranges size N)[i]? =
        some ((size + N - 1) / N * i, (size + N - 1) / N * i + (size + N - 1) / N)) ∧
    size ≤ (size + N - 1) / N * N := by
  exact ⟨chunk_ranges_length size N,
    fun i hi => chunk_ranges_getElem size N i hi,
    ceil_chunk_covers size N h⟩

/-- C6 (amended) witness at `size = 10`, `N = 3`. -/
theorem fasta_C6_amended_witness :
    1 ≤ 3 ∧
    ((chunk_ranges 10 3).length = 3 ∧
     (∀ i, i < 3 →
       (chunk_ranges 10 3)[i]? =
         some ((10 + 3 - 1) / 3 * i, (10 + 3 - 1) / 3 * i + (10 + 3 - 1) / 3)) ∧
     10 ≤ (10 + 3 - 1) / 3 * 3) :=
  ⟨by decide, fasta_C6_amended 10 3 (by decide)⟩

/-! ## Claims about the materializer -/

/-- C7.  On a successful payload read, the materializer returns exactly the
payload bytes when no header range is present; when a header range is
present and the header bytes end with a newline, it returns the header bytes
with the trailing newline removed, then the `" offset=<n>"` token, then a
newline, then the payload bytes. -/
theorem fasta_C7_materializer (storage : Nat → Nat → GetResponse) (sl : FASTASlice)
    (hst : (storage sl.range_0 sl.range_1).status = 200 ∨
           (storage sl.range_0 sl.range_1).status = 206) :
    (sl.header = none →
      FASTASlice.get storage sl = some (storage sl.range_0 sl.range_1).body) ∧
    (∀ h0 h1, sl.header = some (h0, h1) →
      (storage h0 h1).body.getLast? = some nlByte →
      FASTASlice.get storage sl =
        some (stripTrailingNl (storage h0 h1).body
              ++ strBytes (" offset=" ++ toString sl.offset)
              ++ [nlByte]
              ++ (storage sl.range_0 sl.range_1).body)) := by
  constructor
  · intro hh
    unfold FASTASlice.get
    rw [if_pos hst, hh]
  · intro h0 h1 hh hnl
    unfold FASTASlice.get
    rw [if_pos hst, hh]
    simp only [if_pos hst]
    rw [stripTrailingNl, if_pos hnl]

/-- C7 witness: headers `">hd\n"` at `[100,104)`, payload `"ACG"`. -/
theorem fasta_C7_materializer_witness :
    ((demoStorage demoSlice.range_0 demoSlice.range_1).status = 200 ∨
     (demoStorage demoSlice.range_0 demoSlice.range_1).status = 206) ∧
    ((demoSlice.header = none →
       FASTASlice.get demoStorage demoSlice =
         some (demoStorage demoSlice.range_0 demoSlice.range_1).body) ∧
     (∀ h0 h1, demoSlice.header = some (h0, h1) →
       (demoStorage h0 h1).body.getLast? = some nlByte →
       FASTASlice.get demoStorage demoSlice =
         some (stripTrailingNl (demoStorage h0 h1).body
               ++ strBytes (" offset=" ++ toString demoSlice.offset)
               ++ [nlByte]
               ++ (demoStorage demoSlice.range_0 demoSlice.range_1).body))) :=
  ⟨by decide, fasta_C7_materializer demoStorage demoSlice (by decide)⟩

/-- C8 (code evaluation at the failing input).  The header range read
returns HTTP 500 — outside the accepted set `{200, 206}` — yet the
materializer surfaces no error: line 105 of the source re-asserts the
*payload* response's status instead of the header response's, so `get`
returns an assembled fragment built from the failed read's body. -/
theorem fasta_C8_code_eval :
    (badHeaderStorage 50 60).status = 500 ∧
    ¬ ((500 : Nat) = 200 ∨ (500 : Nat) = 206) ∧
    FASTASlice.get badHeaderStorage badHeaderSlice =
      some ([1, 2] ++ strBytes (" offset=" ++ toString (3 : Int)) ++ [nlByte] ++ [7, 8]) := by
  refine ⟨by decide, by decide, by decide⟩

/-- C10.  Whenever a plan carries a header range (and the payload read
succeeds), the materializer drops the header body's last byte
unconditionally — `header_line[:-1]` — before appending the offset token; in
particular when the header bytes do not end with a newline, the dropped byte
is a genuine header character, and the result differs from merely stripping
a trailing newline. -/
theorem fasta_C10_dropLast (storage : Nat → Nat → GetResponse) (sl : FASTASlice)
    (h0 h1 : Nat) (hh : sl.header = some (h0, h1))
    (hst : (storage sl.range_0 sl.range_1).status = 200 ∨
           (storage sl.range_0 sl.range_1).status = 206) :
    FASTASlice.get storage sl =
      some ((storage h0 h1).body.dropLast
            ++ strBytes (" offset=" ++ toString sl.offset)
            ++ [nlByte]
            ++ (storage sl.range_0 sl.range_1).body) ∧
    ((storage h0 h1).body ≠ [] → (storage h0 h1).body.getLast? ≠ some nlByte →
      (storage h0 h1).body.dropLast ≠ stripTrailingNl (storage h0 h1).body) := by
  constructor
  · unfold FASTASlice.get
    rw [if_pos hst, hh]
    simp only [if_pos hst]
  · intro hne hnl
    rw [stripTrailingNl, if_neg hnl]
    intro heq
    have hlt : (storage h0 h1).body.dropLast.length < (storage h0 h1).body.length := by
      rw [List.length_dropLast]
      have := List.length_pos.mpr hne
      omega
    rw [heq] at hlt
    omega

/-- C10 witness: newline-less header `">xy"` at `[20,23)`. -/
theorem fasta_C10_dropLast_witness :
    rawHeaderSlice.header = some (20, 23) ∧
    ((rawHeaderStorage rawHeaderSlice.range_0 rawHeaderSlice.range_1).status = 200 ∨
     (rawHeaderStorage rawHeaderSlice.range_0 rawHeaderSlice.range_1).status = 206) ∧
    (FASTASlice.get rawHeaderStorage rawHeaderSlice =
      some ((rawHeaderStorage 20 23).body.dropLast
            ++ strBytes (" offset=" ++ toString rawHeaderSlice.offset)
            ++ [nlByte]
            ++ (rawHeaderStorage rawHeaderSlice.range_0 rawHeaderSlice.range_1).body) ∧
     ((rawHeaderStorage 20 23).body ≠ [] →
      (rawHeaderStorage 20 23).body.getLast? ≠ some nlByte →
      (rawHeaderStorage 20 23).body.dropLast ≠ stripTrailingNl (rawHeaderStorage 20 23).body)) :=
  ⟨by decide, by decide,
   fasta_C10_dropLast rawHeaderStorage rawHeaderSlice 20 23 (by decide) (by decide)⟩

/-! ## Basic facts about lines and the scan automaton -/

theorem lineLen_le_length (l : List Nat) : lineLen l ≤ l.length := by
  induction l with
  | nil => simp [lineLen]
  | cons b r ih =>
      by_cases hb : b = nlByte
      · simp [lineLen, hb]
      · simp [lineLen, hb]
        omega

theorem lineLen_pos (l : List Nat) (h : l ≠ []) : 1 ≤ lineLen l := by
  match l with
  | [] => exact absurd rfl h
  | b :: r => by_cases hb : b = nlByte <;> simp [lineLen, hb]

theorem hasNl_nil : hasNl [] = false := rfl

theorem hasNl_cons (b : Nat) (l : List Nat) :
    hasNl (b :: l) = (decide (nlByte = b) || hasNl l) := by
  simp only [hasNl, List.mem_cons]
  by_cases hb : nlByte = b <;> by_cases hl : nlByte ∈ l <;> simp [hb, hl]

theorem lineLen_eq_length_of_hasNl_false (l : List Nat) (h : hasNl l = false) :
    lineLen l = l.length := by
  induction l with
  | nil => simp [lineLen]
  | cons b r ih =>
      rw [hasNl_cons] at h
      have hb : ¬ (nlByte = b) := by
        intro hc; simp [hc] at h
      have hr : hasNl r = false := by
        rcases Bool.or_eq_false_iff.mp h with ⟨_, hr⟩; exact hr
      have hbn : ¬ b = nlByte := fun hc => hb hc.symm
      simp [lineLen, if_neg hbn, ih hr]

theorem lineLen_take_of_hasNl (l : List Nat) :
    ∀ k, hasNl (l.take k) = true → lineLen (l.take k) = lineLen l := by
  induction l with
  | nil => intro k h; simp at h; rw [hasNl_nil] at h; exact absurd h (by simp)
  | cons b r ih =>
      intro k h
      match k with
      | 0 => rw [List.take_zero, hasNl_nil] at h; exact absurd h (by simp)
      | k + 1 =>
          rw [List.take_succ_cons] at h ⊢
          by_cases hb : b = nlByte
          · simp [lineLen, hb]
          · have hbr : decide (nlByte = b) = false := by
              simp; intro hc; exact hb hc.symm
            rw [hasNl_cons, hbr, Bool.false_or] at h
            simp [lineLen, hb, ih k h]

theorem dGet_cons_zero (b : Nat) (l : List Nat) : dGet (b :: l) 0 = b := rfl

theorem dGet_cons_succ (b : Nat) (l : List Nat) (i : Nat) :
    dGet (b :: l) (i + 1) = dGet l i := rfl

theorem dGet_before_lineLen (l : List Nat) :
    ∀ t, t + 1 < lineLen l → dGet l t ≠ nlByte := by
  induction l with
  | nil => intro t ht; simp [lineLen] at ht
  | cons b r ih =>
      intro t ht
      by_cases hb : b = nlByte
      · simp [lineLen, hb] at ht
      · match t with
        | 0 => rw [dGet_cons_zero]; exact hb
        | t + 1 =>
            rw [dGet_cons_succ]
            refine ih t ?_
            simp [lineLen, hb] at ht
            omega

/-- Inside the greedy `.+` run of a match started at `s`, the automaton
finishes the current line (emitting the match) and resumes free scanning
right after it. -/
theorem scanLoop_inRun (data : List Nat) : ∀ p s,
    scanLoop data p (ScanMode.inRun s) =
      (s, p + lineLen data, hasNl data) ::
        scanLoop (data.drop (lineLen data)) (p + lineLen data) ScanMode.free := by
  induction data with
  | nil => intro p s; simp [scanLoop, lineLen, hasNl_nil]
  | cons b rest ih =>
      intro p s
      by_cases hb : b = nlByte
      · have hd : decide (nlByte = b) = true := by simp [hb]
        simp [scanLoop, hb, lineLen, hasNl_cons, hd]
      · have hd : decide (nlByte = b) = false := by
          simp; intro hc; exact hb hc.symm
        have harith : p + (lineLen rest + 1) = (p + 1) + lineLen rest := by omega
        simp only [scanLoop, if_neg hb, lineLen, hasNl_cons, hd, Bool.false_or,
          List.drop_succ_cons, harith]
        exact ih (p + 1) s

/-- Structure of a free scan of a window `data` placed at offset `p`: every
match starts inside the window; its end is the end of the line its `>`
starts; its flag records whether that line's newline lies inside the window;
every match except possibly the last captured its newline; and matches are
strictly ordered and non-overlapping. -/
theorem scanLoop_free_spec : ∀ n data p, data.length ≤ n →
    (∀ m ∈ scanLoop data p ScanMode.free,
      p ≤ m.1 ∧ m.1 < p + data.length ∧
      m.2.1 = m.1 + lineLen (data.drop (m.1 - p)) ∧
      m.2.2 = hasNl (data.drop (m.1 - p))) ∧
    (∀ m ∈ (scanLoop data p ScanMode.free).dropLast, m.2.2 = true) ∧
    List.Chain' (fun a b => a.1 < b.1 ∧ a.2.1 ≤ b.1) (scanLoop data p ScanMode.free) := by
  intro n
  induction n with
  | zero =>
      intro data p hlen
      have hd : data = [] := List.eq_nil_of_length_eq_zero (by omega)
      subst hd
      exact ⟨by simp [scanLoop], by simp [scanLoop], by simp [scanLoop]⟩
  | succ n ih =>
      intro data p hlen
      match data with
      | [] => exact ⟨by simp [scanLoop], by simp [scanLoop], by simp [scanLoop]⟩
      | b :: rest =>
        by_cases hb : b = gtByte
        · match rest with
          | [] =>
              refine ⟨?_, ?_, ?_⟩ <;> simp [scanLoop, hb]
          | c :: r2 =>
            by_cases hc : c = nlByte
            · -- `>` followed by a newline: the regex fails, scanning resumes
              have heq : scanLoop (b :: c :: r2) p ScanMode.free
                  = scanLoop r2 (p + 1 + 1) ScanMode.free := by
                simp [scanLoop, hb, hc]
              obtain ⟨ih1, ih2, ih3⟩ := ih r2 (p + 1 + 1) (by simp at hlen; omega)
              refine ⟨?_, ?_, ?_⟩
              · intro m hm
                rw [heq] at hm
                obtain ⟨h1, h2, h3, h4⟩ := ih1 m hm
                have hk : m.1 - p = (m.1 - (p + 1 + 1)) + 1 + 1 := by omega
                refine ⟨by omega, by simp; omega, ?_, ?_⟩
                · rw [hk, List.drop_succ_cons, List.drop_succ_cons]; exact h3
                · rw [hk, List.drop_succ_cons, List.drop_succ_cons]; exact h4
              · rw [heq]; exact ih2
              · rw [heq]; exact ih3
            · -- a real match starts at `p`
              have hbn : b ≠ nlByte := by rw [hb]; simp [gtByte, nlByte]
              have heq : scanLoop (b :: c :: r2) p ScanMode.free
                  = (p, p + 1 + 1 + lineLen r2, hasNl r2) ::
                      scanLoop (r2.drop (lineLen r2)) (p + 1 + 1 + lineLen r2)
                        ScanMode.free := by
                simp only [scanLoop, if_pos hb, if_neg hc]
                exact scanLoop_inRun r2 (p + 1 + 1) p
              have hKle : lineLen r2 ≤ r2.length := lineLen_le_length r2
              obtain ⟨ih1, ih2, ih3⟩ :=
                ih (r2.drop (lineLen r2)) (p + 1 + 1 + lineLen r2)
                  (by simp at hlen ⊢; omega)
              have hlineAll : lineLen (b :: c :: r2) = lineLen r2 + 1 + 1 := by
                simp [lineLen, hbn, hc]
              have hnlAll : hasNl (b :: c :: r2) = hasNl r2 := by
                have hd1 : decide (nlByte = b) = false := by
                  simp; intro h; exact hbn h.symm
                have hd2 : decide (nlByte = c) = false := by
                  simp; intro h; exact hc h.symm
                rw [hasNl_cons, hasNl_cons, hd1, hd2, Bool.false_or, Bool.false_or]
              refine ⟨?_, ?_, ?_⟩
              · intro m hm
                rw [heq] at hm
                rcases List.mem_cons.mp hm with hm | hm
                · subst hm
                  refine ⟨Nat.le_refl p, by simp, ?_, ?_⟩
                  · simp only [Nat.sub_self, List.drop_zero, hlineAll]; omega
                  · simp only [Nat.sub_self, List.drop_zero, hnlAll]
                · obtain ⟨h1, h2, h3, h4⟩ := ih1 m hm
                  have hk : m.1 - p = (lineLen r2 + (m.1 - (p + 1 + 1 + lineLen r2))) + 1 + 1 := by
                    omega
                  have hdrop : (b :: c :: r2).drop (m.1 - p)
                      = (r2.drop (lineLen r2)).drop (m.1 - (p + 1 + 1 + lineLen r2)) := by
                    rw [hk, List.drop_succ_cons, List.drop_succ_cons, ← List.drop_drop]
                  have h2' : m.1 < p + (b :: c :: r2).length := by
                    simp only [List.length_cons]
                    simp only [List.length_drop] at h2
                    omega
                  exact ⟨by omega, h2', by rw [hdrop]; exact h3, by rw [hdrop]; exact h4⟩
              · rw [heq]
                by_cases hnl : hasNl r2 = true
                · match htail : scanLoop (r2.drop (lineLen r2)) (p + 1 + 1 + lineLen r2)
                      ScanMode.free with
                  | [] => simp
                  | t :: ts =>
                      rw [List.dropLast_cons_of_ne_nil (by simp)]
                      intro m hm
                      rcases List.mem_cons.mp hm with hm | hm
                      · subst hm; exact hnl
                      · rw [← htail] at hm; exact ih2 m hm
                · have hK : lineLen r2 = r2.length :=
                    lineLen_eq_length_of_hasNl_false r2 (Bool.not_eq_true _ ▸ hnl)
                  have : r2.drop (lineLen r2) = [] :=
                    List.drop_eq_nil_of_le (by omega)
                  rw [this]
                  simp [scanLoop]
              · rw [heq]
                refine List.chain'_cons'.mpr ⟨?_, ih3⟩
                intro y hy
                have hym := List.mem_of_mem_head? hy
                obtain ⟨h1, _, _, _⟩ := ih1 y hym
                exact ⟨by show p < y.1; omega, by show p + 1 + 1 + lineLen r2 ≤ y.1; omega⟩
        · -- not a `>`: plain scanning step
          have heq : scanLoop (b :: rest) p ScanMode.free
              = scanLoop rest (p + 1) ScanMode.free := by
            simp [scanLoop, hb]
          obtain ⟨ih1, ih2, ih3⟩ := ih rest (p + 1) (by simp at hlen; omega)
          refine ⟨?_, ?_, ?_⟩
          · intro m hm
            rw [heq] at hm
            obtain ⟨h1, h2, h3, h4⟩ := ih1 m hm
            have hk : m.1 - p = (m.1 - (p + 1)) + 1 := by omega
            refine ⟨by omega, by simp; omega, ?_, ?_⟩
            · rw [hk, List.drop_succ_cons]; exact h3
            · rw [hk, List.drop_succ_cons]; exact h4
          · rw [heq]; exact ih2
          · rw [heq]; exact ih3

/-- Every match that captured its newline already ends at the whole-file
line end of its start. -/
theorem matchEnd_eq_fileLineEnd (file : List Nat) (off len : Nat) (m : Nat × Nat × Bool)
    (hm : m ∈ fastaMatches ((file.drop off).take len) off) (hflag : m.2.2 = true) :
    m.2.1 = fileLineEnd file m.1 := by
  obtain ⟨h1, _, _⟩ := scanLoop_free_spec ((file.drop off).take len).length
    ((file.drop off).take len) off (Nat.le_refl _)
  obtain ⟨hp, _, he, hf⟩ := h1 m hm
  have hdrop : ((file.drop off).take len).drop (m.1 - off)
      = (file.drop m.1).take (len - (m.1 - off)) := by
    rw [List.drop_take, List.drop_drop]
    have : off + (m.1 - off) = m.1 := by omega
    rw [this]
  rw [hdrop] at he hf
  rw [fileLineEnd, he, lineLen_take_of_hasNl (file.drop m.1) (len - (m.1 - off)) (by
    rw [← hf, hflag])]

/-- After boundary resolution, the window's boundary list is exactly the
match list with every end replaced by the whole-file line end of the match's
start. -/
theorem scanWindow_eq_map (file : List Nat) (off len : Nat) :
    scanWindow file off len =
      (fastaMatches ((file.drop off).take len) off).map
        (fun m => (m.1, fileLineEnd file m.1)) := by
  obtain ⟨_, h2, _⟩ := scanLoop_free_spec ((file.drop off).take len).length
    ((file.drop off).take len) off (Nat.le_refl _)
  unfold scanWindow preprocessWindow
  dsimp only
  cases hlast : (fastaMatches ((file.drop off).take len) off).getLast? with
  | none =>
      rw [List.getLast?_eq_none_iff.mp hlast]
      rfl
  | some m0 =>
      obtain ⟨s, e, captured⟩ := m0
      have hsplit := List.dropLast_append_getLast? (s, e, captured) hlast
      dsimp only
      by_cases hcap : captured = true
      · rw [if_pos hcap]
        refine List.map_congr_left ?_
        intro m hm
        have hflag : m.2.2 = true := by
          have hmem := hsplit ▸ hm
          rcases List.mem_append.mp hmem with h | h
          · exact h2 m h
          · have hme : m = (s, e, captured) := by simpa using h
            rw [hme]
            exact hcap
        rw [matchEnd_eq_fileLineEnd file off len m hm hflag]
      · rw [if_neg hcap]
        conv_rhs => rw [← hsplit]
        rw [List.map_append]
        congr 1
        · refine List.map_congr_left ?_
          intro m hm
          have hmm : m ∈ fastaMatches ((file.drop off).take len) off :=
            List.dropLast_subset _ hm
          rw [matchEnd_eq_fileLineEnd file off len m hmm (h2 m hm)]

theorem fileLineEnd_lt (file : List Nat) (p : Nat) (h : p < file.length) :
    p < fileLineEnd file p := by
  rw [fileLineEnd]
  have hne : file.drop p ≠ [] := by
    refine List.ne_nil_of_length_pos ?_
    rw [List.length_drop]
    omega
  have := lineLen_pos (file.drop p) hne
  omega

theorem fileLineEnd_le_step (file : List Nat) (p : Nat) :
    fileLineEnd file p ≤ fileLineEnd file (p + 1) := by
  have hd1 : file.drop (p + 1) = (file.drop p).drop 1 := by
    rw [List.drop_drop, Nat.add_comm]
  cases hd : file.drop p with
  | nil =>
      rw [fileLineEnd, fileLineEnd, hd]
      simp [lineLen]
      omega
  | cons b r =>
      rw [fileLineEnd, fileLineEnd, hd, hd1, hd]
      by_cases hb : b = nlByte
      · simp [lineLen, hb]
      · simp [lineLen, hb, List.drop_succ_cons]
        omega

theorem fileLineEnd_mono (file : List Nat) (p q : Nat) (h : p ≤ q) :
    fileLineEnd file p ≤ fileLineEnd file q := by
  induction q, h using Nat.le_induction with
  | base => exact Nat.le_refl _
  | succ q hq ih => exact Nat.le_trans ih (fileLineEnd_le_step file q)

/-- Per-window boundary list facts: entries start inside the window, end at
the whole-file line end of their start, and are strictly ordered. -/
theorem scanWindow_spec (file : List Nat) (off len : Nat) :
    (∀ q ∈ scanWindow file off len,
      off ≤ q.1 ∧ q.1 < off + ((file.drop off).take len).length ∧ q.1 < file.length ∧
      q.2 = fileLineEnd file q.1) ∧
    List.Chain' (fun a b => a.1 < b.1) (scanWindow file off len) := by
  obtain ⟨h1, _, h3⟩ := scanLoop_free_spec ((file.drop off).take len).length
    ((file.drop off).take len) off (Nat.le_refl _)
  rw [scanWindow_eq_map]
  constructor
  · intro q hq
    obtain ⟨m, hm, hqe⟩ := List.mem_map.mp hq
    obtain ⟨hp, hlt, _, _⟩ := h1 m hm
    have hfl : m.1 < file.length := by
      rw [List.length_take, List.length_drop] at hlt
      omega
    rw [← hqe]
    exact ⟨hp, hlt, hfl, rfl⟩
  · refine (List.chain'_map _).mpr ?_
    exact List.Chain'.imp (fun a b hab => hab.1) h3

/-- Concatenating the window results from offset `o` onward gives entries
bounded below by `o`, lying in the file, ending at their line ends, and
globally strictly sorted in both components. -/
theorem mergedScanFrom_spec (file : List Nat) : ∀ lens o,
    (∀ q ∈ ((windowSpans o lens).map (fun w => scanWindow file w.1 w.2)).flatten,
      o ≤ q.1 ∧ q.1 < file.length ∧ q.2 = fileLineEnd file q.1) ∧
    List.Chain' (fun a b => a.1 < b.1 ∧ a.2 ≤ b.2)
      ((windowSpans o lens).map (fun w => scanWindow file w.1 w.2)).flatten := by
  intro lens
  induction lens with
  | nil => intro o; exact ⟨by simp [windowSpans], by simp [windowSpans]⟩
  | cons l ls ih =>
      intro o
      obtain ⟨w1, w2⟩ := scanWindow_spec file o l
      obtain ⟨r1, r2⟩ := ih (o + l)
      have hflat : ((windowSpans o (l :: ls)).map (fun w => scanWindow file w.1 w.2)).flatten
          = scanWindow file o l ++
            ((windowSpans (o + l) ls).map (fun w => scanWindow file w.1 w.2)).flatten := by
        simp [windowSpans]
      rw [hflat]
      have hwin :
          ∀ q ∈ scanWindow file o l, o ≤ q.1 ∧ q.1 < o + l ∧ q.1 < file.length ∧
            q.2 = fileLineEnd file q.1 := by
        intro q hq
        obtain ⟨hq1, hq2, hq3, hq4⟩ := w1 q hq
        refine ⟨hq1, ?_, hq3, hq4⟩
        rw [List.length_take, List.length_drop] at hq2
        omega
      constructor
      · intro q hq
        rcases List.mem_append.mp hq with hq | hq
        · obtain ⟨hq1, _, hq3, hq4⟩ := hwin q hq
          exact ⟨hq1, hq3, hq4⟩
        · obtain ⟨hq1, hq3, hq4⟩ := r1 q hq
          exact ⟨by omega, hq3, hq4⟩
      · refine List.Chain'.append ?_ r2 ?_
        · -- upgrade the per-window strict start order with the end order
          have hup : ∀ t : List (Nat × Nat),
              (∀ q ∈ t, q.2 = fileLineEnd file q.1) →
              List.Chain' (fun a b => a.1 < b.1) t →
              List.Chain' (fun a b => a.1 < b.1 ∧ a.2 ≤ b.2) t := by
            intro t
            induction t with
            | nil => intro _ _; simp
            | cons a t2 iht =>
                intro hend hc
                obtain ⟨hhd, htl⟩ := List.chain'_cons'.mp hc
                refine List.chain'_cons'.mpr ⟨?_, iht (fun q hq => hend q (by simp [hq])) htl⟩
                intro y hy
                have hym := List.mem_of_mem_head? hy
                refine ⟨hhd y hy, ?_⟩
                rw [hend a (by simp), hend y (by simp [hym])]
                exact fileLineEnd_mono file a.1 y.1 (Nat.le_of_lt (hhd y hy))
          exact hup _ (fun q hq => (hwin q hq).2.2.2) w2
        · intro a ha b hb
          have ham := List.mem_of_mem_getLast? ha
          have hbm := List.mem_of_mem_head? hb
          obtain ⟨_, ha2, _, ha4⟩ := hwin a ham
          obtain ⟨hb1, _, hb4⟩ := r1 b hbm
          refine ⟨by omega, ?_⟩
          rw [ha4, hb4]
          exact fileLineEnd_mono file a.1 b.1 (by omega)

/-! ## Claims about the scanner invariants -/

/-- C9 (counterexample).  A window whose offsets reach the `uint32` limit:
window content `">a\n"` at `chunk_offset = 2147483647 * 2 = 4294967294`.
The scanner's pair is `(4294967294, 4294967297)`, but
`np.array(..., dtype=np.uint32)` wraps it to `(4294967294, 1)`, so the
emitted boundary pair violates `header_start < sequence_start`. -/
theorem fasta_C9_counterexample :
    preprocess_fasta [] [62, 97, 10] 2147483647 2 = [(4294967294, 1)] ∧
    ¬ ((4294967294 : Nat) < 1) :=
  ⟨by decide, by decide⟩

/-- C9 (amended).  Before the `uint32` narrowing (equivalently, whenever all
offsets stay below `2^32`) the claim holds: every boundary pair satisfies
`header_start < sequence_start`, each window's pairs have non-decreasing
(indeed strictly increasing) `header_start`, and the concatenation of any
contiguous windows in file order is globally sorted by `header_start` and by
`sequence_start`. -/
theorem fasta_C9_amended (file : List Nat) (lens : List Nat) :
    (∀ w ∈ windowSpans 0 lens, ∀ q ∈ scanWindow file w.1 w.2, q.1 < q.2) ∧
    (∀ w ∈ windowSpans 0 lens,
      List.Chain' (fun a b => a.1 ≤ b.1) (scanWindow file w.1 w.2)) ∧
    List.Chain' (fun a b => a.1 ≤ b.1 ∧ a.2 ≤ b.2) (mergedScan file lens) := by
  refine ⟨?_, ?_, ?_⟩
  · intro w _ q hq
    obtain ⟨hspec, _⟩ := scanWindow_spec file w.1 w.2
    obtain ⟨_, _, hlt, hend⟩ := hspec q hq
    rw [hend]
    exact fileLineEnd_lt file q.1 hlt
  · intro w _
    obtain ⟨_, hchain⟩ := scanWindow_spec file w.1 w.2
    exact List.Chain'.imp (fun a b hab => Nat.le_of_lt hab) hchain
  · obtain ⟨_, hchain⟩ := mergedScanFrom_spec file lens 0
    exact List.Chain'.imp (fun a b hab => ⟨Nat.le_of_lt hab.1, hab.2⟩) hchain

/-! ## Window-split equivalence machinery -/

theorem dGet_drop (l : List Nat) (k i : Nat) : dGet (l.drop k) i = dGet l (k + i) := by
  rw [dGet, dGet, List.getD_eq_getElem?_getD, List.getD_eq_getElem?_getD, List.getElem?_drop]

theorem dGet_slice (file : List Nat) (off len i : Nat) (hi : i < len) :
    dGet ((file.drop off).take len) i = dGet file (off + i) := by
  rw [dGet, dGet, List.getD_eq_getElem?_getD, List.getD_eq_getElem?_getD,
    List.getElem?_take_of_lt hi, List.getElem?_drop]

theorem HdrOk_drop (data : List Nat) (k : Nat) (h : HdrOk data) : HdrOk (data.drop k) := by
  intro i h1 hgt
  rw [dGet_drop] at hgt ⊢
  rw [List.length_drop] at h1
  have he : k + (i + 1) = (k + i) + 1 := by omega
  rw [he] at hgt
  exact h (k + i) (by omega) hgt

theorem isHeaderAt_cons_succ (b : Nat) (rest : List Nat) (i : Nat) :
    isHeaderAt (b :: rest) (i + 1) = isHeaderAt rest i := by
  unfold isHeaderAt
  apply decide_eq_decide.mpr
  rw [show dGet (b :: rest) (i + 1) = dGet rest i from rfl,
    show dGet (b :: rest) (i + 1 + 1) = dGet rest (i + 1) from rfl,
    List.length_cons]
  constructor
  · rintro ⟨x, y, z⟩; exact ⟨x, by omega, z⟩
  · rintro ⟨x, y, z⟩; exact ⟨x, by omega, z⟩

theorem headerIdxs_cons (b : Nat) (rest : List Nat) :
    headerIdxs (b :: rest) =
      (if isHeaderAt (b :: rest) 0 = true then [0] else [])
        ++ (headerIdxs rest).map (· + 1) := by
  have hshift : ((List.range rest.length).map Nat.succ).filter (isHeaderAt (b :: rest))
      = ((List.range rest.length).filter (isHeaderAt rest)).map Nat.succ := by
    rw [List.filter_map]
    congr 1
    refine List.filter_congr ?_
    intro i _
    show isHeaderAt (b :: rest) (Nat.succ i) = isHeaderAt rest i
    exact isHeaderAt_cons_succ b rest i
  unfold headerIdxs
  rw [List.length_cons, List.range_succ_eq_map, List.filter_cons]
  by_cases h0 : isHeaderAt (b :: rest) 0 = true
  · rw [if_pos h0, if_pos h0, hshift]
    simp [Nat.succ_eq_add_one]
  · rw [if_neg (by simpa using h0), if_neg h0, hshift]
    simp [Nat.succ_eq_add_one]

theorem headerIdxs_shift : ∀ (k : Nat) (data : List Nat), k ≤ data.length →
    (∀ j, j < k → isHeaderAt data j = false) →
    headerIdxs data = (headerIdxs (data.drop k)).map (· + k) := by
  intro k
  induction k with
  | zero => intro data _ _; simp
  | succ k ihk =>
      intro data hk hno
      match data with
      | [] => simp at hk
      | b :: rest =>
          have h0 : ¬ isHeaderAt (b :: rest) 0 = true := by
            rw [hno 0 (by omega)]; simp
          have hrest := ihk rest (by simp at hk; omega)
            (fun j hj => by
              rw [← isHeaderAt_cons_succ b rest j]
              exact hno (j + 1) (by omega))
          rw [headerIdxs_cons, if_neg h0, hrest, List.drop_succ_cons, List.nil_append,
            List.map_map]
          refine List.map_congr_left ?_
          intro j _
          show j + k + 1 = j + (k + 1)
          omega

/-- Under `HdrOk`, the match list of a free scan is exactly one match per
header-start position, ending at that position's line end. -/
theorem scanLoop_free_canon : ∀ n data p, data.length ≤ n → HdrOk data →
    scanLoop data p ScanMode.free =
      (headerIdxs data).map
        (fun i => (p + i, p + i + lineLen (data.drop i), hasNl (data.drop i))) := by
  intro n
  induction n with
  | zero =>
      intro data p hlen _
      have hd : data = [] := List.eq_nil_of_length_eq_zero (by omega)
      subst hd
      simp [scanLoop, headerIdxs]
  | succ n ih =>
      intro data p hlen hok
      match data with
      | [] => simp [scanLoop, headerIdxs]
      | b :: rest =>
        by_cases hb : b = gtByte
        · match rest with
          | [] =>
              subst hb
              have h1 : scanLoop [gtByte] p ScanMode.free = [] := by simp [scanLoop]
              have h2 : headerIdxs [gtByte] = [] := by decide
              rw [h1, h2, List.map_nil]
          | c :: r2 =>
            by_cases hc : c = nlByte
            · have heq : scanLoop (b :: c :: r2) p ScanMode.free
                  = scanLoop r2 (p + 1 + 1) ScanMode.free := by
                simp [scanLoop, hb, hc]
              have hok2 : HdrOk r2 := by
                have := HdrOk_drop (b :: c :: r2) 2 hok
                simpa using this
              have h0 : isHeaderAt (b :: c :: r2) 0 = false := by
                simp only [isHeaderAt, decide_eq_false_iff_not]
                rintro ⟨-, -, h3⟩
                exact h3 (show dGet (b :: c :: r2) 1 = nlByte by
                  rw [show dGet (b :: c :: r2) 1 = c from rfl, hc])
              have h1 : isHeaderAt (c :: r2) 0 = false := by
                simp only [isHeaderAt, decide_eq_false_iff_not]
                rintro ⟨h1, -, -⟩
                rw [show dGet (c :: r2) 0 = c from rfl, hc] at h1
                simp [nlByte, gtByte] at h1
              rw [heq, ih r2 (p + 1 + 1) (by simp at hlen; omega) hok2,
                headerIdxs_cons, if_neg (by rw [h0]; simp), List.nil_append,
                headerIdxs_cons, if_neg (by rw [h1]; simp), List.nil_append,
                List.map_map, List.map_map]
              refine List.map_congr_left ?_
              intro i _
              show (p + 1 + 1 + i, p + 1 + 1 + i + lineLen (r2.drop i), hasNl (r2.drop i))
                  = (p + (i + 1 + 1), p + (i + 1 + 1) + lineLen ((b :: c :: r2).drop (i + 1 + 1)),
                     hasNl ((b :: c :: r2).drop (i + 1 + 1)))
              rw [List.drop_succ_cons, List.drop_succ_cons]
              have : p + 1 + 1 + i = p + (i + 1 + 1) := by omega
              rw [this]
            · have hbn : b ≠ nlByte := by rw [hb]; simp [gtByte, nlByte]
              have heq : scanLoop (b :: c :: r2) p ScanMode.free
                  = (p, p + 1 + 1 + lineLen r2, hasNl r2) ::
                      scanLoop (r2.drop (lineLen r2)) (p + 1 + 1 + lineLen r2)
                        ScanMode.free := by
                simp only [scanLoop, if_pos hb, if_neg hc]
                exact scanLoop_inRun r2 (p + 1 + 1) p
              have hKle : lineLen r2 ≤ r2.length := lineLen_le_length r2
              have hdropK : (b :: c :: r2).drop (lineLen r2 + 1 + 1) = r2.drop (lineLen r2) := by
                rw [List.drop_succ_cons, List.drop_succ_cons]
              have hok3 : HdrOk (r2.drop (lineLen r2)) := by
                have := HdrOk_drop (b :: c :: r2) (lineLen r2 + 1 + 1) hok
                rwa [hdropK] at this
              have h0 : isHeaderAt (b :: c :: r2) 0 = true := by
                simp only [isHeaderAt, decide_eq_true_eq]
                exact ⟨hb, by simp, hc⟩
              have hno : ∀ j, j < 1 + lineLen r2 → isHeaderAt (c :: r2) j = false := by
                intro j hj
                simp only [isHeaderAt, decide_eq_false_iff_not]
                rintro ⟨hgt, hlt, -⟩
                have hlen2 : j + 1 < (b :: c :: r2).length := by
                  simp only [List.length_cons] at hlt ⊢
                  omega
                have happ := hok j hlen2
                  (by rw [show dGet (b :: c :: r2) (j + 1) = dGet (c :: r2) j from rfl]; exact hgt)
                match j with
                | 0 =>
                    rw [show dGet (b :: c :: r2) 0 = b from rfl, hb] at happ
                    simp [gtByte, nlByte] at happ
                | 1 =>
                    rw [show dGet (b :: c :: r2) 1 = c from rfl] at happ
                    exact hc happ
                | (j' + 2) =>
                    rw [show dGet (b :: c :: r2) (j' + 2) = dGet r2 j' from rfl] at happ
                    exact dGet_before_lineLen r2 j' (by omega) happ
              have hshift1 : headerIdxs (c :: r2)
                  = (headerIdxs (r2.drop (lineLen r2))).map (· + (1 + lineLen r2)) := by
                have hb1 : 1 + lineLen r2 ≤ (c :: r2).length := by
                  simp only [List.length_cons]; omega
                have := headerIdxs_shift (1 + lineLen r2) (c :: r2) hb1 hno
                rwa [show (c :: r2).drop (1 + lineLen r2) = r2.drop (lineLen r2) by
                  rw [Nat.add_comm, List.drop_succ_cons]] at this
              have hlineAll : lineLen (b :: c :: r2) = lineLen r2 + 1 + 1 := by
                simp [lineLen, hbn, hc]
              have hnlAll : hasNl (b :: c :: r2) = hasNl r2 := by
                have hd1 : decide (nlByte = b) = false := by
                  simp; intro h; exact hbn h.symm
                have hd2 : decide (nlByte = c) = false := by
                  simp; intro h; exact hc h.symm
                rw [hasNl_cons, hasNl_cons, hd1, hd2, Bool.false_or, Bool.false_or]
              rw [heq, headerIdxs_cons, if_pos h0, hshift1, List.map_map,
                List.singleton_append, List.map_cons,
                ih (r2.drop (lineLen r2)) (p + 1 + 1 + lineLen r2)
                  (by simp [List.length_drop] at hlen ⊢; omega) hok3,
                List.map_map]
              congr 1
              · show (p, p + 1 + 1 + lineLen r2, hasNl r2)
                    = (p + 0, p + 0 + lineLen ((b :: c :: r2).drop 0), hasNl ((b :: c :: r2).drop 0))
                rw [List.drop_zero, hlineAll, hnlAll]
                have : p + 1 + 1 + lineLen r2 = p + (lineLen r2 + 1 + 1) := by omega
                rw [this]
                simp
              · refine List.map_congr_left ?_
                intro i _
                show (p + 1 + 1 + lineLen r2 + i,
                      p + 1 + 1 + lineLen r2 + i + lineLen ((r2.drop (lineLen r2)).drop i),
                      hasNl ((r2.drop (lineLen r2)).drop i))
                    = (p + (i + (1 + lineLen r2) + 1),
                       p + (i + (1 + lineLen r2) + 1)
                         + lineLen ((b :: c :: r2).drop (i + (1 + lineLen r2) + 1)),
                       hasNl ((b :: c :: r2).drop (i + (1 + lineLen r2) + 1)))
                have harg : i + (1 + lineLen r2) + 1 = (lineLen r2 + i) + 1 + 1 := by omega
                have hdrop2 : (b :: c :: r2).drop (i + (1 + lineLen r2) + 1)
                    = (r2.drop (lineLen r2)).drop i := by
                  rw [harg, List.drop_succ_cons, List.drop_succ_cons, ← List.drop_drop]
                rw [hdrop2]
                have : p + 1 + 1 + lineLen r2 + i = p + (i + (1 + lineLen r2) + 1) := by omega
                rw [this]
        · have heq : scanLoop (b :: rest) p ScanMode.free
              = scanLoop rest (p + 1) ScanMode.free := by
            simp [scanLoop, hb]
          have hok1 : HdrOk rest := by
            have := HdrOk_drop (b :: rest) 1 hok
            simpa using this
          have h0 : isHeaderAt (b :: rest) 0 = false := by
            simp only [isHeaderAt, decide_eq_false_iff_not]
            rintro ⟨h1, -, -⟩
            exact hb (by rw [show dGet (b :: rest) 0 = b from rfl] at h1; exact h1)
          rw [heq, ih rest (p + 1) (by simp at hlen; omega) hok1,
            headerIdxs_cons, if_neg (by rw [h0]; simp), List.nil_append, List.map_map]
          refine List.map_congr_left ?_
          intro i _
          show (p + 1 + i, p + 1 + i + lineLen (rest.drop i), hasNl (rest.drop i))
              = (p + (i + 1), p + (i + 1) + lineLen ((b :: rest).drop (i + 1)),
                 hasNl ((b :: rest).drop (i + 1)))
          rw [List.drop_succ_cons]
          have : p + 1 + i = p + (i + 1) := by omega
          rw [this]

/-- Under `HdrOk`, a window whose end does not cut a header right after its
sigil reports exactly the file's header starts inside the window, each paired
with its line end. -/
theorem scanWindow_canon (file : List Nat) (off len : Nat)
    (hA : HdrOk file) (hle : off + len ≤ file.length)
    (hcut : noHeaderCut file (off + len)) :
    scanWindow file off len = canonPairs file off len := by
  have hdlen : ((file.drop off).take len).length = len := by
    rw [List.length_take, List.length_drop]
    omega
  have hokd : HdrOk ((file.drop off).take len) := by
    intro i h1 hgt
    rw [hdlen] at h1
    rw [dGet_slice file off len (i + 1) h1] at hgt
    rw [dGet_slice file off len i (by omega)]
    exact hA (off + i) (by omega)
      (by rw [show off + i + 1 = off + (i + 1) from by omega]; exact hgt)
  have hmatches := scanLoop_free_canon ((file.drop off).take len).length
    ((file.drop off).take len) off (Nat.le_refl _) hokd
  have hcanon : canonPairs file off len
      = ((List.range len).filter (fun i => isHeaderAt file (off + i))).map
          (fun i => (off + i, fileLineEnd file (off + i))) := by
    unfold canonPairs
    rw [List.filter_map, List.map_map]
    rfl
  have hfeq : (List.range len).filter (isHeaderAt ((file.drop off).take len))
      = (List.range len).filter (fun i => isHeaderAt file (off + i)) := by
    refine List.filter_congr ?_
    intro i hi
    rw [List.mem_range] at hi
    unfold isHeaderAt
    apply decide_eq_decide.mpr
    constructor
    · rintro ⟨x, y, z⟩
      rw [hdlen] at y
      rw [dGet_slice file off len i hi] at x
      rw [dGet_slice file off len (i + 1) y] at z
      exact ⟨x, by omega, by rw [show off + i + 1 = off + (i + 1) from by omega]; exact z⟩
    · rintro ⟨x, y, z⟩
      by_cases hcase : i + 1 < len
      · refine ⟨by rw [dGet_slice file off len i hi]; exact x, by rw [hdlen]; exact hcase, ?_⟩
        rw [dGet_slice file off len (i + 1) hcase,
          show off + (i + 1) = off + i + 1 from by omega]
        exact z
      · exfalso
        have hieq : i + 1 = len := by omega
        exact hcut ⟨by omega, by omega,
          by rw [show off + len - 1 = off + i from by omega]; exact x,
          by rw [show off + len = off + i + 1 from by omega]; exact z⟩
  rw [scanWindow_eq_map,
    show fastaMatches ((file.drop off).take len) off
      = scanLoop ((file.drop off).take len) off ScanMode.free from rfl,
    hmatches, List.map_map, hcanon]
  unfold headerIdxs
  rw [hdlen, hfeq]
  rfl

/-- Reference lists over adjacent windows concatenate. -/
theorem canonPairs_append (file : List Nat) (o a b : Nat) :
    canonPairs file o a ++ canonPairs file (o + a) b = canonPairs file o (a + b) := by
  have hmm : ((List.range b).map (a + ·)).map (fun i => o + i)
      = (List.range b).map (fun i => (o + a) + i) := by
    rw [List.map_map]
    refine List.map_congr_left ?_
    intro i _
    show o + (a + i) = o + a + i
    omega
  unfold canonPairs
  conv_rhs => rw [List.range_add, List.map_append, hmm]
  rw [List.filter_append, List.map_append]

/-- Joined canonical form of a span decomposition. -/
theorem mergedScanFrom_canon (file : List Nat) (hA : HdrOk file) : ∀ lens o,
    o + lens.sum ≤ file.length →
    (∀ w ∈ windowSpans o lens, noHeaderCut file (w.1 + w.2)) →
    ((windowSpans o lens).map (fun w => scanWindow file w.1 w.2)).flatten
      = canonPairs file o lens.sum := by
  intro lens
  induction lens with
  | nil =>
      intro o _ _
      simp [windowSpans, canonPairs]
  | cons l ls ihl =>
      intro o hle hcut
      have hflat : ((windowSpans o (l :: ls)).map (fun w => scanWindow file w.1 w.2)).flatten
          = scanWindow file o l ++
            ((windowSpans (o + l) ls).map (fun w => scanWindow file w.1 w.2)).flatten := by
        simp [windowSpans]
      rw [hflat,
        scanWindow_canon file o l hA (by simp [List.sum_cons] at hle; omega)
          (hcut (o, l) (by simp [windowSpans])),
        ihl (o + l) (by simp [List.sum_cons] at hle ⊢; omega)
          (fun w hw => hcut w (by simp [windowSpans]; right; exact hw)),
        canonPairs_append, List.sum_cons]

/-- C5 (counterexample).  File `">ab\nCC\n"` cut into windows `[0,1)` and
`[1,7)` — the boundary splits the header at byte offset 1 of the marker, so
window 0 ends in a bare `>`.  The regex `>.+` needs a byte after the `>`,
so neither window matches anything and the merged index is empty, while the
single-window scan finds the record `(0, 4)`. -/
theorem fasta_C5_counterexample :
    mergedScan [62, 97, 98, 10, 67, 67, 10] [1, 6] = [] ∧
    scanWindow [62, 97, 98, 10, 67, 67, 10] 0 7 = [(0, 4)] ∧
    ([] : List (Nat × Nat)) ≠ [(0, 4)] :=
  ⟨by decide, by decide, by decide⟩

/-- C5 (amended).  Windowed scanning agrees with whole-file scanning for
every contiguous window decomposition, provided (a) every `>` byte of the
file sits at the start of a line, and (b) no window boundary falls
immediately after a header's `>` sigil (with header bytes continuing after
the boundary).  Splits at any other byte offset of a header are recovered
exactly by the supplementary-read resolution. -/
theorem fasta_C5_amended (file : List Nat) (lens : List Nat)
    (hA : HdrOk file) (hsum : lens.sum = file.length)
    (hcut : ∀ w ∈ windowSpans 0 lens, noHeaderCut file (w.1 + w.2)) :
    mergedScan file lens = scanWindow file 0 file.length := by
  unfold mergedScan
  rw [mergedScanFrom_canon file hA lens 0 (by omega) hcut, hsum,
    scanWindow_canon file 0 file.length hA (by omega)
      (by unfold noHeaderCut; rintro ⟨-, hb, -, -⟩; omega)]

/-- C5 (amended) witness: the 7-byte file `">ab\nCC\n"` split into windows
of lengths 2 and 5 — the boundary cuts the header `">ab"` in the middle, and
the resolved windowed scan equals the whole-file scan. -/
theorem fasta_C5_amended_witness :
    HdrOk [62, 97, 98, 10, 67, 67, 10] ∧
    ([2, 5] : List Nat).sum = ([62, 97, 98, 10, 67, 67, 10] : List Nat).length ∧
    (∀ w ∈ windowSpans 0 [2, 5], noHeaderCut [62, 97, 98, 10, 67, 67, 10] (w.1 + w.2)) ∧
    mergedScan [62, 97, 98, 10, 67, 67, 10] [2, 5] =
      scanWindow [62, 97, 98, 10, 67, 67, 10] 0
        ([62, 97, 98, 10, 67, 67, 10] : List Nat).length :=
  ⟨by decide, by decide, by decide,
   fasta_C5_amended [62, 97, 98, 10, 67, 67, 10] [2, 5] (by decide) (by decide) (by decide)⟩
